import Mathlib

/-!
Shallow embedding of the crawl-and-extract pipeline of `src/scraper.py`
(class `WebScraper`, configuration `ScrapeConfig`, pattern lists
`BLOCKED_PATTERNS` and `CONTENT_BLOCK_DEFAULTS`).

Python strings are modelled as lists of characters (`Str`).  External
library calls (HTTP fetch, BeautifulSoup parsing/cleaning, the langchain
text splitter) are modelled as oracle parameters: a fetch oracle maps a URL
to an optional `Page` carrying the sanitised HTML, the extracted text and
the anchor hrefs of the raw HTML; the text splitter is a parameter of
`scrapeAndIndex`.  Everything the repository's own code computes (URL
filtering, line filtering, cross-page deduplication, the crawl loop, the
chunk metadata construction) is embedded directly.
-/

/-- Python strings are modelled as lists of characters. -/
abbrev Str := List Char

namespace Scraper

/-- Whitespace characters of Python `str.strip` and regex `\s` (ASCII range). -/
def isWS (c : Char) : Bool :=
  c == ' ' || c == '\t' || c == '\n' || c == '\r' || c == '\x0b' || c == '\x0c'

/-- Regex word characters `\w` (ASCII range). -/
def isWordChar (c : Char) : Bool := c.isAlphanum || c == '_'

/-- Lowercasing, as performed by `str.lower` / `re.IGNORECASE` (ASCII). -/
def lowerStr (s : Str) : Str := s.map Char.toLower

/-- Python `str.strip()` : drop leading and trailing whitespace. -/
def pyTrim (s : Str) : Str := ((s.dropWhile isWS).reverse.dropWhile isWS).reverse

/-- Python `text.split(sep)` for a one-character separator. -/
def splitCh (sep : Char) : Str → List Str
  | [] => [[]]
  | c :: rest =>
    if c = sep then [] :: splitCh sep rest
    else (splitCh sep rest).modifyHead (c :: ·)

/-- Python `text.split(". ")` : leftmost, non-overlapping split on the
    two-character separator used by `_dedupe_lines_global`. -/
def splitDotSpace : Str → List Str
  | [] => [[]]
  | [c] => [[c]]
  | c1 :: c2 :: rest =>
    if c1 = '.' ∧ c2 = ' ' then [] :: splitDotSpace rest
    else (splitDotSpace (c2 :: rest)).modifyHead (c1 :: ·)

/-- `re.sub(r"\s+", " ", s)` : replace each maximal whitespace run by a single
    space; `prevWS` records whether the previous character was whitespace. -/
def collapseWSAux : Bool → Str → Str
  | _, [] => []
  | prevWS, c :: rest =>
    if isWS c then
      if prevWS then collapseWSAux true rest else ' ' :: collapseWSAux true rest
    else c :: collapseWSAux false rest

/-- `re.sub(r"\s+", " ", s)` on a whole string. -/
def collapseWS (s : Str) : Str := collapseWSAux false s

/-- Unanchored `re.search` for a literal pattern: try every start position. -/
def subSearch (pat : Str) : Str → Bool
  | [] => pat.isPrefixOf []
  | c :: rest => pat.isPrefixOf (c :: rest) || subSearch pat rest

/-- A regex word boundary `\b` holds against this neighbouring character. -/
def boundaryOk : Option Char → Bool
  | none => true
  | some c => !isWordChar c

/-- `re.search` for `\b<pat>\b` with a literal word `pat`, tracking the
    character immediately before the current start position. -/
def wbGo (pat : Str) : Option Char → Str → Bool
  | prev, [] => boundaryOk prev && pat.isPrefixOf []
  | prev, c :: rest =>
    (boundaryOk prev && pat.isPrefixOf (c :: rest) &&
      boundaryOk ((c :: rest).drop pat.length).head?) ||
    wbGo pat (some c) rest

/-- `re.search(r"\b<pat>\b", s)` for a literal word `pat`. -/
def wbSearch (pat : Str) (s : Str) : Bool := wbGo pat none s

/-- One attempt to match `w1\s+w2\s+...\s+wn` starting at the head of `s`.
    The words contain no whitespace characters, so consuming the maximal
    whitespace run between two words is equivalent to the regex `\s+`. -/
def seqHere : List Str → Str → Bool
  | [], _ => true
  | [p], s => p.isPrefixOf s
  | p :: q :: ps, s =>
    p.isPrefixOf s &&
      (match s.drop p.length with
       | [] => false
       | c :: rest => isWS c && seqHere (q :: ps) ((c :: rest).dropWhile isWS))

/-- `re.search` for a word-sequence pattern `w1\s+...\s+wn`. -/
def seqSearch (parts : List Str) : Str → Bool
  | [] => seqHere parts []
  | c :: rest => seqHere parts (c :: rest) || seqSearch parts rest

/-- `re.search(r"^learn\s*more$", s)` : "learn", optional whitespace, "more",
    spanning the whole string. -/
def learnMoreRe (s : Str) : Bool :=
  "learn".data.isPrefixOf s && ((s.drop 5).dropWhile isWS == "more".data)

/-- The default line-block patterns `CONTENT_BLOCK_DEFAULTS`, each applied by
    `re.search(..., re.IGNORECASE)` to a stripped line.  Anchored patterns
    (with both `^` and `$`, applied to strings without internal newlines)
    become whole-string tests; the trailing optional `\??` of the
    "how can we help you" pattern cannot change whether a search match exists
    and is dropped. -/
def contentBlockedDefault (ln : Str) : Bool :=
  let low := lowerStr ln
  wbSearch "feedback".data low ||
  seqSearch ["how".data, "can".data, "we".data, "help".data, "you".data] low ||
  seqSearch ["help".data, "us".data, "improve".data] low ||
  seqSearch ["chat".data, "with".data, "us".data] low ||
  seqSearch ["subscribe".data, "to".data, "our".data, "newsletter".data] low ||
  seqSearch ["accept".data, "cookies".data] low ||
  seqSearch ["cookie".data, "preferences".data] low ||
  subSearch "feedbackform".data low ||
  low == "solutions".data ||
  learnMoreRe low ||
  low == "countries".data ||
  low == "careers".data ||
  (low == "news".data || low == "newsroom".data) ||
  low == "contact".data ||
  seqSearch ["a".data, "world".data, "of".data, "possibilities".data] low

/-- `ScrapeConfig` from the source.  The user-supplied regex lists
    `exclude_url_patterns` and `block_text_patterns` are modelled by their
    denotations: a predicate telling whether any of the extra patterns
    matches the given string (`fun _ => false` is the empty default list).
    `request_timeout` and `delay_seconds` do not influence the computed
    result and carry no structure here. -/
structure ScrapeConfig where
  maxPages : Nat := 50
  maxDepth : Nat := 3
  excludeUrl : Str → Bool := fun _ => false
  blockText : Str → Bool := fun _ => false

/-- `BLOCKED_PATTERNS` : every entry is a regex literal except
    `[?&]feedback=`, which matches after either `?` or `&`.  All entries are
    unanchored, case-insensitive searches over the whole URL string. -/
def isBlockedBuiltin (url : Str) : Bool :=
  let u := lowerStr url
  subSearch "/contact".data u || subSearch "/contacts".data u ||
  subSearch "/login".data u || subSearch "/signup".data u ||
  subSearch "/register".data u || subSearch "/logout".data u ||
  subSearch "/cart".data u || subSearch "/checkout".data u ||
  subSearch "/feedback".data u ||
  (subSearch "?feedback=".data u || subSearch "&feedback=".data u) ||
  subSearch "/support".data u || subSearch "/help".data u ||
  subSearch "mailto:".data u || subSearch "tel:".data u

/-- `WebScraper._is_blocked` : the built-in blocklist followed by the
    configured extra patterns. -/
def isBlocked (url : Str) (cfg : ScrapeConfig) : Bool :=
  isBlockedBuiltin url || cfg.excludeUrl url

/-- The characters after the first "//" of the string, if any. -/
def afterDS : Str → Option Str
  | [] => none
  | [_] => none
  | c1 :: c2 :: rest =>
    if c1 = '/' ∧ c2 = '/' then some rest else afterDS (c2 :: rest)

/-- Model of `urllib.parse.urlparse(url).netloc` for the URLs arising here:
    the component between the scheme's "//" and the next `/`, `?` or `#`,
    and empty when the URL has no "//".  No case normalisation is applied,
    matching `urlparse` (whose `netloc` preserves case). -/
def netloc (url : Str) : Str :=
  match afterDS url with
  | none => []
  | some r => r.takeWhile (fun c => !(c == '/' || c == '?' || c == '#'))

/-- `WebScraper._is_same_domain` : equality of the two netlocs
    (`urlparse` raises on neither input here, so the `except` branch
    returning `False` is unreachable in the model). -/
def sameDomain (base url : Str) : Bool := netloc base == netloc url

/-- Whether the href carries its own scheme (a `:` before any `/`). -/
def hasScheme (href : Str) : Bool :=
  (href.takeWhile (fun c => !(c == '/'))).contains ':'

/-- The `scheme:` prefix of a URL. -/
def schemeOf (url : Str) : Str := url.takeWhile (fun c => !(c == ':')) ++ [':']

/-- The `scheme://netloc` prefix of a URL. -/
def schemeNetloc (url : Str) : Str := schemeOf url ++ '/' :: '/' :: netloc url

/-- The base URL up to and including its last `/`. -/
def baseDir (url : Str) : Str :=
  (url.reverse.dropWhile (fun c => !(c == '/'))).reverse

/-- Model of `urllib.parse.urljoin(base, href)` restricted to the cases
    arising here: an absolute href (one with a scheme) replaces the base
    entirely; scheme-relative, root-relative and path-relative hrefs are
    resolved against the base. -/
def urljoin (base href : Str) : Str :=
  if href = [] then base
  else if hasScheme href then href
  else if ['/', '/'].isPrefixOf href then schemeOf base ++ href
  else if ['/'].isPrefixOf href then schemeNetloc base ++ href
  else baseDir base ++ href

/-- `WebScraper._filter_text` : split into lines, strip each, drop empty
    lines and lines matching a block pattern (defaults plus the configured
    extra patterns), join the survivors with single spaces, collapse
    whitespace runs, and strip. -/
def filterText (t : Str) (cfg : ScrapeConfig) : Str :=
  let lines := (splitCh '\n' t).map pyTrim
  let kept := lines.filter (fun ln => !ln.isEmpty && !(contentBlockedDefault ln || cfg.blockText ln))
  pyTrim (collapseWS (List.intercalate [' '] kept))

/-- The fragment signature of `_dedupe_lines_global` :
    `re.sub(r"\W+", "", ln.lower())`, i.e. the lowercased fragment with all
    non-word characters removed. -/
def sigOf (ln : Str) : Str := (lowerStr ln).filter isWordChar

/-- The loop body of `_dedupe_lines_global` over the ". "-split fragments:
    strip each raw fragment, skip it when shorter than 30 characters or when
    its signature was already seen, otherwise keep it and record its
    signature.  Returns the kept fragments and the grown signature set
    (the Python `set` is modelled as a list queried by membership). -/
def dedupeAux : List Str → List Str → List Str × List Str
  | [], seen => ([], seen)
  | raw :: rest, seen =>
    let ln := pyTrim raw
    if ln.length < 30 then dedupeAux rest seen
    else
      let sig := sigOf ln
      if sig ∈ seen then dedupeAux rest seen
      else
        (ln :: (dedupeAux rest (seen ++ [sig])).1, (dedupeAux rest (seen ++ [sig])).2)

/-- `WebScraper._dedupe_lines_global` : split on ". ", run the keep/skip loop
    against the crawl-wide signature set, and rejoin the kept fragments
    with ". ". -/
def dedupeLinesGlobal (t : Str) (seen : List Str) : Str × List Str :=
  (List.intercalate ['.', ' '] (dedupeAux (splitDotSpace t) seen).1,
   (dedupeAux (splitDotSpace t) seen).2)

/-- The sentence-like fragments of a text, exactly as `_dedupe_lines_global`
    inspects them: split on ". ", strip, and keep only fragments of at
    least 30 characters. -/
def fragsOf (t : Str) : List Str :=
  ((splitDotSpace t).map pyTrim).filter (fun l => 30 ≤ l.length)

/-- All fragment signatures occurring in an ordered list of page texts. -/
def sigsOfTexts (texts : List Str) : List Str :=
  (texts.map (fun t => (fragsOf t).map sigOf)).flatten

/-- Whether the two-character separator ". " occurs in the string. -/
def hasDS : Str → Bool
  | [] => false
  | [_] => false
  | c1 :: c2 :: rest => (decide (c1 = '.' ∧ c2 = ' ')) || hasDS (c2 :: rest)

/-- A successfully fetched page, as seen through the external libraries:
    `cleanedHtml` is the output of `_clean_html` (BeautifulSoup-based
    sanitisation), `extractedText` the output of `_extract_text` on the
    cleaned HTML, and `hrefs` the (already `.strip()`-ed or raw) href
    attributes of the `<a href=...>` anchors of the raw HTML, in document
    order. -/
structure Page where
  cleanedHtml : Str
  extractedText : Str
  hrefs : List Str
deriving DecidableEq

/-- The network: `_fetch` either returns a page or raises (`none`). -/
abbrev FetchOracle := Str → Option Page

/-- The per-page metadata dict `{'source_url': url, 'cleaned_html': ...}`
    appended alongside each kept page text. -/
structure PageMeta where
  sourceUrl : Str
  cleanedHtml : Str
deriving DecidableEq

/-- The mutable state of `WebScraper.crawl` : `visited`, the FIFO `queue`
    of `(url, depth)` frontier entries, the accumulated `texts` and
    `metas`, and the crawl-wide `seen_signatures`.  Two ghost fields change
    no computed value: `attempts` records, in order, each `(url, depth)`
    for which `_fetch` was invoked, and `processed` records, in visitation
    order, each successfully fetched page's filtered pre-dedup text
    (`cleaned_text` after `_filter_text`) paired with its deduplicated
    text (after `_dedupe_lines_global`). -/
structure CrawlState where
  visited : List Str
  queue : List (Str × Nat)
  texts : List Str
  metas : List PageMeta
  seen : List Str
  attempts : List (Str × Nat)
  processed : List (Str × Str)
deriving DecidableEq

/-- Link discovery (the `soup.find_all('a', href=True)` loop): strip each
    href, resolve it against the current page URL, and keep it, at
    `depth + 1`, when it starts with "http", is not yet visited, is not
    blocked, and is same-domain with the start URL. -/
def discoverLinks (startUrl url : Str) (depth : Nat) (cfg : ScrapeConfig)
    (visited : List Str) (hrefs : List Str) : List (Str × Nat) :=
  hrefs.filterMap (fun h =>
    let nextUrl := urljoin url (pyTrim h)
    if "http".data.isPrefixOf nextUrl ∧ nextUrl ∉ visited ∧
        isBlocked nextUrl cfg = false ∧ sameDomain startUrl nextUrl = true then
      some (nextUrl, depth + 1)
    else none)

/-- The successful-fetch branch of the loop body: mark the URL visited, run
    Filter and Dedupe over the extracted text, append a `PageResult` when
    the result is non-empty and longer than 50 characters, and enqueue the
    discovered links behind the remaining queue. -/
def processPage (cfg : ScrapeConfig) (startUrl url : Str) (depth : Nat)
    (rest : List (Str × Nat)) (page : Page) (s : CrawlState) : CrawlState :=
  let visited' := s.visited ++ [url]
  let t1 := filterText page.extractedText cfg
  let t2 := (dedupeLinesGlobal t1 s.seen).1
  let keep : Bool := !t2.isEmpty && decide (50 < t2.length)
  { visited := visited'
    queue := rest ++ discoverLinks startUrl url depth cfg visited' page.hrefs
    texts := if keep then s.texts ++ [t2] else s.texts
    metas := if keep then s.metas ++ [⟨url, page.cleanedHtml⟩] else s.metas
    seen := (dedupeLinesGlobal t1 s.seen).2
    attempts := s.attempts ++ [(url, depth)]
    processed := s.processed ++ [(t1, t2)] }

/-- One iteration of the `while` body of `WebScraper.crawl` : pop the head
    of the queue; skip it when already visited, too deep, blocked, or not
    same-domain; otherwise attempt the fetch — on failure skip, on success
    process the page. -/
def crawlStep (world : FetchOracle) (cfg : ScrapeConfig) (startUrl : Str)
    (s : CrawlState) : CrawlState :=
  match s.queue with
  | [] => s
  | (url, depth) :: rest =>
    if url ∈ s.visited then { s with queue := rest }
    else if cfg.maxDepth < depth then { s with queue := rest }
    else if isBlocked url cfg then { s with queue := rest }
    else if ¬ sameDomain startUrl url then { s with queue := rest }
    else
      match world url with
      | none => { s with queue := rest, attempts := s.attempts ++ [(url, depth)] }
      | some page => processPage cfg startUrl url depth rest page s

/-- The `while queue and len(visited) < max_pages` loop, indexed by the
    number of iterations still allowed (`fuel`).  With enough fuel this is
    exactly the Python loop; with less it is the state after `fuel`
    iterations, so quantifying over the fuel also quantifies over every
    transient state of a run. -/
def crawlLoop (world : FetchOracle) (cfg : ScrapeConfig) (startUrl : Str) :
    Nat → CrawlState → CrawlState
  | 0, s => s
  | fuel + 1, s =>
    if s.queue ≠ [] ∧ s.visited.length < cfg.maxPages then
      crawlLoop world cfg startUrl fuel (crawlStep world cfg startUrl s)
    else s

/-- The initial crawl state: empty accumulators, the start URL queued at
    depth 0. -/
def initState (startUrl : Str) : CrawlState :=
  { visited := [], queue := [(startUrl, 0)], texts := [], metas := [],
    seen := [], attempts := [], processed := [] }

/-- `WebScraper.crawl` : run the loop from the initial state.  The returned
    state carries the dict `{'texts', 'metadata', 'visited'}` in its
    `texts`, `metas` and `visited` fields. -/
def crawl (world : FetchOracle) (cfg : ScrapeConfig) (startUrl : Str)
    (fuel : Nat) : CrawlState :=
  crawlLoop world cfg startUrl fuel (initState startUrl)

/-- A metadata value: Python dict values are strings or ints here. -/
inductive MVal where
  | s (v : Str)
  | n (v : Nat)
deriving DecidableEq

/-- A chunk-metadata dict, modelled as an ordered key/value list. -/
abbrev ChunkMeta := List (String × MVal)

/-- The chunking loop of `scrape_and_index` : for each page, split its text
    with the text splitter and emit each chunk together with
    `{'source_url': ..., 'chunk': idx}` where `idx` enumerates the page's
    chunks from 0.  `zip` semantics: iteration stops when either list
    ends. -/
def chunkPayload (split : Str → List Str) :
    List Str → List PageMeta → List Str × List ChunkMeta
  | [], _ => ([], [])
  | _ :: _, [] => ([], [])
  | t :: ts, m :: ms =>
    let chunks := split t
    let metas := (List.range chunks.length).map
      (fun idx => [("source_url", MVal.s m.sourceUrl), ("chunk", MVal.n idx)])
    let rest := chunkPayload split ts ms
    (chunks ++ rest.1, metas ++ rest.2)

/-- A returned item `{'url': ..., 'text': ..., 'length': ..., 'html': ...}`
    (the `'html'` key is always present since crawl metas always carry
    `cleaned_html`). -/
structure ScrapeItem where
  url : Str
  text : Str
  length : Nat
  html : Str
deriving DecidableEq

/-- The result of `scrape_and_index` : the returned payload plus, as the
    `indexed` field, the `(texts, metadatas)` argument pair handed to
    `vector_store.add_texts` (`none` when `add_texts` was not called). -/
structure ScrapeIndexResult where
  pagesScraped : Nat
  visited : List Str
  items : List ScrapeItem
  indexed : Option (List Str × List ChunkMeta)

/-- `WebScraper.scrape_and_index` : crawl, optionally chunk-and-index, and
    build the inspection payload.  `split` is the denotation of
    `RecursiveCharacterTextSplitter.split_text`. -/
def scrapeAndIndex (world : FetchOracle) (cfg : ScrapeConfig)
    (startUrl : Str) (fuel : Nat) (split : Str → List Str)
    (index includeText : Bool) : ScrapeIndexResult :=
  let result := crawl world cfg startUrl fuel
  let indexed :=
    if index ∧ result.texts ≠ [] then
      let payload := chunkPayload split result.texts result.metas
      if payload.1 ≠ [] then some payload else none
    else none
  let items :=
    if includeText then
      (result.texts.zip result.metas).map
        (fun tm => { url := tm.2.sourceUrl, text := tm.1,
                     length := tm.1.length, html := tm.2.cleanedHtml })
    else []
  { pagesScraped := result.texts.length
    visited := result.visited
    items := items
    indexed := indexed }

/-! ### Lemmas about trimming -/

theorem dropWhile_dropWhile (p : Char → Bool) (l : Str) :
    (l.dropWhile p).dropWhile p = l.dropWhile p := by
  induction l with
  | nil => rfl
  | cons c rest ih =>
    rw [List.dropWhile_cons]
    by_cases h : p c
    · rw [if_pos h]; exact ih
    · rw [if_neg h, List.dropWhile_cons, if_neg h]

theorem head?_dropWhile (p : Char → Bool) (l : Str) (c : Char)
    (h : (l.dropWhile p).head? = some c) : p c = false := by
  induction l with
  | nil => simp at h
  | cons a rest ih =>
    rw [List.dropWhile_cons] at h
    by_cases ha : p a
    · rw [if_pos ha] at h; exact ih h
    · rw [if_neg ha] at h
      simp only [List.head?_cons, Option.some.injEq] at h
      subst h; exact Bool.eq_false_iff.mpr ha

theorem getLast?_dropWhile (p : Char → Bool) (l : Str) :
    l.dropWhile p = [] ∨ (l.dropWhile p).getLast? = l.getLast? := by
  induction l with
  | nil => left; rfl
  | cons a rest ih =>
    rw [List.dropWhile_cons]
    by_cases ha : p a
    · rw [if_pos ha]
      cases rest with
      | nil => left; rfl
      | cons b tl =>
        rcases ih with h | h
        · left; exact h
        · right; rw [h, List.getLast?_cons_cons]
    · rw [if_neg ha]; right; rfl

theorem pyTrim_getLast? (s : Str) (c : Char)
    (h : (pyTrim s).getLast? = some c) : isWS c = false := by
  unfold pyTrim at h
  rw [List.getLast?_reverse] at h
  exact head?_dropWhile _ _ _ h

theorem pyTrim_head? (s : Str) (c : Char)
    (h : (pyTrim s).head? = some c) : isWS c = false := by
  unfold pyTrim at h
  rw [List.head?_reverse] at h
  rcases getLast?_dropWhile isWS (s.dropWhile isWS).reverse with he | he
  · rw [he] at h; simp at h
  · rw [he, List.getLast?_reverse] at h
    exact head?_dropWhile _ _ _ h

theorem pyTrim_eq_self (l : Str)
    (h1 : ∀ c, l.head? = some c → isWS c = false)
    (h2 : ∀ c, l.getLast? = some c → isWS c = false) : pyTrim l = l := by
  have hd : l.dropWhile isWS = l := by
    cases l with
    | nil => rfl
    | cons a rest =>
      rw [List.dropWhile_cons, if_neg]
      rw [h1 a rfl]; exact Bool.false_ne_true
  have hr : l.reverse.dropWhile isWS = l.reverse := by
    cases hrv : l.reverse with
    | nil => rfl
    | cons a rest =>
      rw [List.dropWhile_cons, if_neg]
      have hla : l.getLast? = some a := by
        rw [← List.head?_reverse, hrv, List.head?_cons]
      rw [h2 a hla]; exact Bool.false_ne_true
  unfold pyTrim
  rw [hd, hr, List.reverse_reverse]

theorem pyTrim_idem (s : Str) : pyTrim (pyTrim s) = pyTrim s :=
  pyTrim_eq_self _ (pyTrim_head? s) (pyTrim_getLast? s)

/-- Stripping only removes characters from the two ends. -/
theorem pyTrim_decomp (l : Str) : ∃ pre suf, l = pre ++ (pyTrim l ++ suf) := by
  obtain ⟨pre, hpre⟩ := List.dropWhile_suffix (l := l) isWS
  obtain ⟨mid, hmid⟩ :=
    List.dropWhile_suffix (l := (l.dropWhile isWS).reverse) isWS
  refine ⟨pre, mid.reverse, ?_⟩
  have : (l.dropWhile isWS).reverse.reverse =
      (mid ++ (l.dropWhile isWS).reverse.dropWhile isWS).reverse := by
    rw [hmid]
  rw [List.reverse_reverse, List.reverse_append] at this
  unfold pyTrim
  rw [← this, hpre]

/-! ### Lemmas about the ". " split -/

theorem hasDS_cons (c1 c2 : Char) (rest : Str) :
    hasDS (c1 :: c2 :: rest) = ((decide (c1 = '.' ∧ c2 = ' ')) || hasDS (c2 :: rest)) := rfl

theorem hasDS_append (l₁ l₂ : Str) (h : hasDS (l₁ ++ l₂) = false) :
    hasDS l₁ = false ∧ hasDS l₂ = false := by
  induction l₁ using hasDS.induct with
  | case1 => exact ⟨rfl, h⟩
  | case2 c =>
    cases l₂ with
    | nil => exact ⟨rfl, rfl⟩
    | cons c2 tl =>
      rw [List.singleton_append, hasDS_cons, Bool.or_eq_false_iff] at h
      exact ⟨rfl, h.2⟩
  | case3 c1 c2 rest ih =>
    rw [List.cons_append, List.cons_append, hasDS_cons, Bool.or_eq_false_iff] at h
    rw [← List.cons_append] at h
    obtain ⟨h1, h2⟩ := ih h.2
    refine ⟨?_, h2⟩
    rw [hasDS_cons, h.1, h1]
    rfl

theorem hasDS_pyTrim (l : Str) (h : hasDS l = false) : hasDS (pyTrim l) = false := by
  obtain ⟨pre, suf, hd⟩ := pyTrim_decomp l
  rw [hd] at h
  exact (hasDS_append _ _ (hasDS_append _ _ h).2).1

theorem splitDotSpace_ne_nil (s : Str) : splitDotSpace s ≠ [] := by
  induction s using splitDotSpace.induct with
  | case1 => simp [splitDotSpace]
  | case2 c => simp [splitDotSpace]
  | case3 c1 c2 rest h ih => intro hc; rw [splitDotSpace, if_pos h] at hc; exact List.noConfusion hc
  | case4 c1 c2 rest h ih =>
    intro hc
    rw [splitDotSpace] at hc
    rw [if_neg] at hc
    · cases hs : splitDotSpace (c2 :: rest) with
      | nil => exact ih hs
      | cons a tl => rw [hs, List.modifyHead_cons] at hc; exact List.noConfusion hc
    · exact h

/-- The head of `splitDotSpace (c :: s)` is either empty or starts with `c`. -/
theorem splitDotSpace_head (c : Char) (s : Str) :
    (splitDotSpace (c :: s)).head? = some [] ∨
      ∃ h', (splitDotSpace (c :: s)).head? = some (c :: h') := by
  cases s with
  | nil => right; exact ⟨[], rfl⟩
  | cons c2 rest =>
    by_cases hc : c = '.' ∧ c2 = ' '
    · left; rw [splitDotSpace, if_pos hc]; rfl
    · right
      rw [splitDotSpace, if_neg hc]
      cases hs : splitDotSpace (c2 :: rest) with
      | nil => exact absurd hs (splitDotSpace_ne_nil _)
      | cons a tl => exact ⟨a, by rw [List.modifyHead_cons, List.head?_cons]⟩

theorem splitDotSpace_no_ds (s : Str) : ∀ p ∈ splitDotSpace s, hasDS p = false := by
  induction s using splitDotSpace.induct with
  | case1 => intro p hp; simp [splitDotSpace] at hp; rw [hp]; rfl
  | case2 c => intro p hp; simp [splitDotSpace] at hp; rw [hp]; rfl
  | case3 c1 c2 rest h ih =>
    intro p hp
    rw [splitDotSpace, if_pos h, List.mem_cons] at hp
    rcases hp with hp | hp
    · rw [hp]; rfl
    · exact ih p hp
  | case4 c1 c2 rest h ih =>
    intro p hp
    rw [splitDotSpace, if_neg h] at hp
    cases hs : splitDotSpace (c2 :: rest) with
    | nil => exact absurd hs (splitDotSpace_ne_nil _)
    | cons a tl =>
      rw [hs, List.modifyHead_cons, List.mem_cons] at hp
      rcases hp with hp | hp
      · subst hp
        have ha : hasDS a = false := ih a (by rw [hs]; exact List.mem_cons_self a tl)
        cases a with
        | nil => rfl
        | cons b a' =>
          rcases splitDotSpace_head c2 rest with hh | ⟨h', hh⟩
          · rw [hs, List.head?_cons] at hh
            exact absurd (Option.some.inj hh) (List.cons_ne_nil b a')
          · rw [hs, List.head?_cons] at hh
            have hb : b = c2 := by
              have := Option.some.inj hh
              exact (List.cons.injEq ..).mp this.symm |>.1.symm
            subst hb
            rw [hasDS_cons, ha, Bool.or_false, decide_eq_false_iff_not]
            exact h
      · exact ih p (by rw [hs]; exact List.mem_cons_of_mem a hp)

theorem splitDotSpace_single (l : Str) (h : hasDS l = false) :
    splitDotSpace l = [l] := by
  induction l using splitDotSpace.induct with
  | case1 => rfl
  | case2 c => rfl
  | case3 c1 c2 rest hc ih =>
    exfalso
    rw [hasDS_cons, decide_eq_true (by exact hc), Bool.true_or] at h
    exact absurd h (by simp)
  | case4 c1 c2 rest hc ih =>
    rw [hasDS_cons, Bool.or_eq_false_iff] at h
    rw [splitDotSpace, if_neg hc, ih h.2, List.modifyHead_cons]

theorem splitDotSpace_sep (l m : Str) (h : hasDS l = false) :
    splitDotSpace (l ++ '.' :: ' ' :: m) = l :: splitDotSpace m := by
  induction l using hasDS.induct with
  | case1 =>
    rw [List.nil_append, splitDotSpace, if_pos ⟨rfl, rfl⟩]
  | case2 c =>
    rw [List.singleton_append, splitDotSpace, if_neg (fun hc => by
      exact absurd hc.2 (by decide))]
    rw [splitDotSpace, if_pos ⟨rfl, rfl⟩, List.modifyHead_cons]
  | case3 c1 c2 rest ih =>
    rw [hasDS_cons, Bool.or_eq_false_iff, decide_eq_false_iff_not] at h
    rw [List.cons_append, List.cons_append, splitDotSpace, if_neg h.1,
      ← List.cons_append, ih h.2, List.modifyHead_cons]

theorem intercalate_cons₂ (sep x y : Str) (tl : List Str) :
    List.intercalate sep (x :: y :: tl) = x ++ sep ++ List.intercalate sep (y :: tl) := by
  simp [List.intercalate, List.flatten]

theorem splitDotSpace_intercalate (out : List Str) (hne : out ≠ [])
    (h : ∀ l ∈ out, hasDS l = false) :
    splitDotSpace (List.intercalate ['.', ' '] out) = out := by
  induction out with
  | nil => exact absurd rfl hne
  | cons l out' ih =>
    cases out' with
    | nil =>
      have : List.intercalate ['.', ' '] [l] = l := by simp [List.intercalate]
      rw [this, splitDotSpace_single l (h l (List.mem_cons_self l []))]
    | cons l2 tl =>
      rw [intercalate_cons₂, List.append_assoc]
      have hsep : ['.', ' '] ++ List.intercalate ['.', ' '] (l2 :: tl) =
          '.' :: ' ' :: List.intercalate ['.', ' '] (l2 :: tl) := rfl
      rw [hsep, splitDotSpace_sep l _ (h l (List.mem_cons_self l _)),
        ih (List.cons_ne_nil l2 tl) (fun x hx => h x (List.mem_cons_of_mem l hx))]

/-! ### Lemmas about `dedupeAux` and `dedupeLinesGlobal` -/

theorem dedupeAux_seen (raws seen : List Str) :
    (dedupeAux raws seen).2 = seen ++ ((dedupeAux raws seen).1).map sigOf := by
  induction raws generalizing seen with
  | nil => simp [dedupeAux]
  | cons raw rest ih =>
    simp only [dedupeAux]
    by_cases h1 : (pyTrim raw).length < 30
    · rw [if_pos h1]; exact ih seen
    · rw [if_neg h1]
      by_cases h2 : sigOf (pyTrim raw) ∈ seen
      · rw [if_pos h2]; exact ih seen
      · rw [if_neg h2]
        rw [ih (seen ++ [sigOf (pyTrim raw)])]
        simp

theorem dedupeAux_fresh_nodup (raws seen : List Str) :
    (((dedupeAux raws seen).1).map sigOf).Nodup ∧
      ∀ g ∈ ((dedupeAux raws seen).1).map sigOf, g ∉ seen := by
  induction raws generalizing seen with
  | nil => simp [dedupeAux]
  | cons raw rest ih =>
    simp only [dedupeAux]
    by_cases h1 : (pyTrim raw).length < 30
    · rw [if_pos h1]; exact ih seen
    · rw [if_neg h1]
      by_cases h2 : sigOf (pyTrim raw) ∈ seen
      · rw [if_pos h2]; exact ih seen
      · rw [if_neg h2]
        obtain ⟨hnd, hfr⟩ := ih (seen ++ [sigOf (pyTrim raw)])
        refine ⟨?_, ?_⟩
        · rw [List.map_cons, List.nodup_cons]
          exact ⟨fun hmem => hfr _ hmem (by simp), hnd⟩
        · intro g hg
          rw [List.map_cons, List.mem_cons] at hg
          rcases hg with rfl | hg
          · exact h2
          · exact fun hgseen => hfr g hg (List.mem_append_left _ hgseen)

theorem dedupeAux_out (raws seen : List Str) :
    ∀ l ∈ (dedupeAux raws seen).1,
      (∃ raw ∈ raws, l = pyTrim raw) ∧ 30 ≤ l.length := by
  induction raws generalizing seen with
  | nil => simp [dedupeAux]
  | cons raw rest ih =>
    simp only [dedupeAux]
    by_cases h1 : (pyTrim raw).length < 30
    · rw [if_pos h1]
      intro l hl
      obtain ⟨⟨r, hr, hlr⟩, hlen⟩ := ih seen l hl
      exact ⟨⟨r, List.mem_cons_of_mem raw hr, hlr⟩, hlen⟩
    · rw [if_neg h1]
      by_cases h2 : sigOf (pyTrim raw) ∈ seen
      · rw [if_pos h2]
        intro l hl
        obtain ⟨⟨r, hr, hlr⟩, hlen⟩ := ih seen l hl
        exact ⟨⟨r, List.mem_cons_of_mem raw hr, hlr⟩, hlen⟩
      · rw [if_neg h2]
        intro l hl
        rw [List.mem_cons] at hl
        rcases hl with rfl | hl
        · exact ⟨⟨raw, List.mem_cons_self raw rest, rfl⟩, Nat.le_of_not_lt h1⟩
        · obtain ⟨⟨r, hr, hlr⟩, hlen⟩ := ih (seen ++ [sigOf (pyTrim raw)]) l hl
          exact ⟨⟨r, List.mem_cons_of_mem raw hr, hlr⟩, hlen⟩

/-- The kept fragments form a sublist of the long trimmed input fragments. -/
theorem dedupeAux_sublist (raws seen : List Str) :
    List.Sublist (dedupeAux raws seen).1
      ((raws.map pyTrim).filter (fun l => 30 ≤ l.length)) := by
  induction raws generalizing seen with
  | nil => simp [dedupeAux]
  | cons raw rest ih =>
    simp only [dedupeAux, List.map_cons]
    by_cases h1 : (pyTrim raw).length < 30
    · rw [if_pos h1, List.filter_cons_of_neg (by simpa using h1)]
      exact ih seen
    · rw [if_neg h1, List.filter_cons_of_pos (by simpa using Nat.le_of_not_lt h1)]
      by_cases h2 : sigOf (pyTrim raw) ∈ seen
      · rw [if_pos h2]
        exact List.Sublist.cons _ (ih seen)
      · rw [if_neg h2]
        exact List.Sublist.cons₂ _ (ih (seen ++ [sigOf (pyTrim raw)]))

/-- The first input fragment carrying an unseen signature is kept. -/
theorem dedupeAux_first (raws seen : List Str) (g : Str) (hg : g ∉ seen) (f₀ : Str)
    (hf : (((raws.map pyTrim).filter (fun l => 30 ≤ l.length)).filter
        (fun l => sigOf l == g)).head? = some f₀) :
    f₀ ∈ (dedupeAux raws seen).1 := by
  induction raws generalizing seen with
  | nil => simp at hf
  | cons raw rest ih =>
    simp only [dedupeAux, List.map_cons] at hf ⊢
    by_cases h1 : (pyTrim raw).length < 30
    · rw [List.filter_cons_of_neg (by simpa using h1)] at hf
      rw [if_pos h1]
      exact ih seen hg hf
    · rw [List.filter_cons_of_pos (by simpa using Nat.le_of_not_lt h1)] at hf
      rw [if_neg h1]
      by_cases h2 : sigOf (pyTrim raw) ∈ seen
      · have hne : (sigOf (pyTrim raw) == g) = false := by
          simp only [beq_eq_false_iff_ne, ne_eq]
          exact fun he => hg (he ▸ h2)
        rw [List.filter_cons_of_neg (by simp [hne])] at hf
        rw [if_pos h2]
        exact ih seen hg hf
      · rw [if_neg h2]
        by_cases h3 : sigOf (pyTrim raw) = g
        · rw [List.filter_cons_of_pos (by simp [h3])] at hf
          rw [List.head?_cons, Option.some.injEq] at hf
          rw [← hf]
          exact List.mem_cons_self _ _
        · rw [List.filter_cons_of_neg (by simp [h3])] at hf
          have hg' : g ∉ seen ++ [sigOf (pyTrim raw)] := by
            intro hmem
            rcases List.mem_append.mp hmem with hmem | hmem
            · exact hg hmem
            · rw [List.mem_singleton] at hmem
              exact h3 hmem.symm
          exact List.mem_cons_of_mem _ (ih _ hg' hf)

/-! ### The crawl loop: characterisation and invariant machinery -/

theorem processPage_visited (cfg : ScrapeConfig) (startUrl url : Str) (depth : Nat)
    (rest : List (Str × Nat)) (page : Page) (s : CrawlState) :
    (processPage cfg startUrl url depth rest page s).visited = s.visited ++ [url] := rfl

theorem processPage_attempts (cfg : ScrapeConfig) (startUrl url : Str) (depth : Nat)
    (rest : List (Str × Nat)) (page : Page) (s : CrawlState) :
    (processPage cfg startUrl url depth rest page s).attempts =
      s.attempts ++ [(url, depth)] := rfl

theorem processPage_processed (cfg : ScrapeConfig) (startUrl url : Str) (depth : Nat)
    (rest : List (Str × Nat)) (page : Page) (s : CrawlState) :
    (processPage cfg startUrl url depth rest page s).processed =
      s.processed ++ [(filterText page.extractedText cfg,
        (dedupeLinesGlobal (filterText page.extractedText cfg) s.seen).1)] := rfl

theorem processPage_seen (cfg : ScrapeConfig) (startUrl url : Str) (depth : Nat)
    (rest : List (Str × Nat)) (page : Page) (s : CrawlState) :
    (processPage cfg startUrl url depth rest page s).seen =
      (dedupeLinesGlobal (filterText page.extractedText cfg) s.seen).2 := rfl

theorem processPage_queue (cfg : ScrapeConfig) (startUrl url : Str) (depth : Nat)
    (rest : List (Str × Nat)) (page : Page) (s : CrawlState) :
    (processPage cfg startUrl url depth rest page s).queue =
      rest ++ discoverLinks startUrl url depth cfg (s.visited ++ [url]) page.hrefs := rfl

theorem processPage_texts (cfg : ScrapeConfig) (startUrl url : Str) (depth : Nat)
    (rest : List (Str × Nat)) (page : Page) (s : CrawlState) :
    (processPage cfg startUrl url depth rest page s).texts =
      if (dedupeLinesGlobal (filterText page.extractedText cfg) s.seen).1 ≠ [] ∧
          50 < (dedupeLinesGlobal (filterText page.extractedText cfg) s.seen).1.length then
        s.texts ++ [(dedupeLinesGlobal (filterText page.extractedText cfg) s.seen).1]
      else s.texts := by
  unfold processPage
  by_cases h : (dedupeLinesGlobal (filterText page.extractedText cfg) s.seen).1 ≠ [] ∧
      50 < (dedupeLinesGlobal (filterText page.extractedText cfg) s.seen).1.length
  · rw [if_pos h]
    have : (!(dedupeLinesGlobal (filterText page.extractedText cfg) s.seen).1.isEmpty &&
        decide (50 < (dedupeLinesGlobal (filterText page.extractedText cfg) s.seen).1.length))
        = true := by
      simp [List.isEmpty_iff, h.1, h.2]
    simp only [this, if_true]
  · rw [if_neg h]
    have : (!(dedupeLinesGlobal (filterText page.extractedText cfg) s.seen).1.isEmpty &&
        decide (50 < (dedupeLinesGlobal (filterText page.extractedText cfg) s.seen).1.length))
        = false := by
      rcases Decidable.not_and_iff_or_not.mp h with h' | h'
      · simp only [ne_eq, not_not] at h'
        simp [List.isEmpty_iff, h']
      · simp [h']
    simp [this]

theorem processPage_metas (cfg : ScrapeConfig) (startUrl url : Str) (depth : Nat)
    (rest : List (Str × Nat)) (page : Page) (s : CrawlState) :
    (processPage cfg startUrl url depth rest page s).metas =
      if (dedupeLinesGlobal (filterText page.extractedText cfg) s.seen).1 ≠ [] ∧
          50 < (dedupeLinesGlobal (filterText page.extractedText cfg) s.seen).1.length then
        s.metas ++ [⟨url, page.cleanedHtml⟩]
      else s.metas := by
  unfold processPage
  by_cases h : (dedupeLinesGlobal (filterText page.extractedText cfg) s.seen).1 ≠ [] ∧
      50 < (dedupeLinesGlobal (filterText page.extractedText cfg) s.seen).1.length
  · rw [if_pos h]
    have : (!(dedupeLinesGlobal (filterText page.extractedText cfg) s.seen).1.isEmpty &&
        decide (50 < (dedupeLinesGlobal (filterText page.extractedText cfg) s.seen).1.length))
        = true := by
      simp [List.isEmpty_iff, h.1, h.2]
    simp only [this, if_true]
  · rw [if_neg h]
    have : (!(dedupeLinesGlobal (filterText page.extractedText cfg) s.seen).1.isEmpty &&
        decide (50 < (dedupeLinesGlobal (filterText page.extractedText cfg) s.seen).1.length))
        = false := by
      rcases Decidable.not_and_iff_or_not.mp h with h' | h'
      · simp only [ne_eq, not_not] at h'
        simp [List.isEmpty_iff, h']
      · simp [h']
    simp [this]

/-- Exhaustive description of one loop iteration: the queue is empty and
    nothing changes; or the popped entry is skipped; or its fetch fails; or
    the page is processed.  In the last two cases the entry passed every
    eligibility check. -/
theorem crawlStep_cases (world : FetchOracle) (cfg : ScrapeConfig) (startUrl : Str)
    (s : CrawlState) :
    (crawlStep world cfg startUrl s = s ∧ s.queue = []) ∨
    (∃ url depth rest, s.queue = (url, depth) :: rest ∧
      (crawlStep world cfg startUrl s = { s with queue := rest } ∨
       (crawlStep world cfg startUrl s =
          { s with queue := rest, attempts := s.attempts ++ [(url, depth)] } ∧
        url ∉ s.visited ∧ depth ≤ cfg.maxDepth ∧ isBlocked url cfg = false ∧
        sameDomain startUrl url = true ∧ world url = none) ∨
       (∃ page, world url = some page ∧
        crawlStep world cfg startUrl s = processPage cfg startUrl url depth rest page s ∧
        url ∉ s.visited ∧ depth ≤ cfg.maxDepth ∧ isBlocked url cfg = false ∧
        sameDomain startUrl url = true))) := by
  obtain ⟨v, q, tx, ms, se, ats, pr⟩ := s
  cases q with
  | nil => left; exact ⟨rfl, rfl⟩
  | cons e rest =>
    obtain ⟨url, depth⟩ := e
    right
    refine ⟨url, depth, rest, rfl, ?_⟩
    unfold crawlStep
    dsimp only
    by_cases h1 : url ∈ v
    · rw [if_pos h1]; exact Or.inl rfl
    rw [if_neg h1]
    by_cases h2 : cfg.maxDepth < depth
    · rw [if_pos h2]; exact Or.inl rfl
    rw [if_neg h2]
    by_cases h3 : isBlocked url cfg = true
    · rw [if_pos h3]; exact Or.inl rfl
    rw [if_neg h3]
    by_cases h4 : sameDomain startUrl url = true
    · rw [if_neg (by simpa using h4)]
      cases hw : world url with
      | none =>
        exact Or.inr (Or.inl
          ⟨rfl, h1, Nat.le_of_not_lt h2, Bool.eq_false_iff.mpr h3, h4, rfl⟩)
      | some page =>
        exact Or.inr (Or.inr
          ⟨page, rfl, rfl, h1, Nat.le_of_not_lt h2, Bool.eq_false_iff.mpr h3, h4⟩)
    · rw [if_pos (by simpa using h4)]
      exact Or.inl rfl

/-- Any property preserved by single iterations is preserved by the loop. -/
theorem crawlLoop_inv (world : FetchOracle) (cfg : ScrapeConfig) (startUrl : Str)
    (P : CrawlState → Prop)
    (hstep : ∀ s, s.queue ≠ [] → s.visited.length < cfg.maxPages → P s →
      P (crawlStep world cfg startUrl s)) :
    ∀ fuel s, P s → P (crawlLoop world cfg startUrl fuel s) := by
  intro fuel
  induction fuel with
  | zero => intro s h; exact h
  | succ n ih =>
    intro s h
    rw [crawlLoop]
    split
    · next hg => exact ih _ (hstep s hg.1 hg.2 h)
    · exact h

/-- Everything `discoverLinks` enqueues passed the enqueue-time checks and
    sits at depth `depth + 1`. -/
theorem discoverLinks_mem (startUrl url : Str) (depth : Nat) (cfg : ScrapeConfig)
    (visited : List Str) (hrefs : List Str) :
    ∀ e ∈ discoverLinks startUrl url depth cfg visited hrefs,
      "http".data.isPrefixOf e.1 = true ∧ e.1 ∉ visited ∧
        isBlocked e.1 cfg = false ∧ sameDomain startUrl e.1 = true ∧
        e.2 = depth + 1 := by
  intro e he
  unfold discoverLinks at he
  rw [List.mem_filterMap] at he
  obtain ⟨h, _, hfe⟩ := he
  by_cases hc : "http".data.isPrefixOf (urljoin url (pyTrim h)) ∧
      urljoin url (pyTrim h) ∉ visited ∧
      isBlocked (urljoin url (pyTrim h)) cfg = false ∧
      sameDomain startUrl (urljoin url (pyTrim h)) = true
  · rw [if_pos hc] at hfe
    obtain rfl := Option.some.inj hfe
    exact ⟨hc.1, hc.2.1, hc.2.2.1, hc.2.2.2, rfl⟩
  · rw [if_neg hc] at hfe
    exact Option.noConfusion hfe

theorem sigsOfTexts_append (ts : List Str) (t : Str) :
    sigsOfTexts (ts ++ [t]) = sigsOfTexts ts ++ (fragsOf t).map sigOf := by
  simp [sigsOfTexts]

/-- Page cap: the visited set never exceeds `max_pages`. -/
theorem crawl_visited_le (world : FetchOracle) (cfg : ScrapeConfig)
    (startUrl : Str) (fuel : Nat) :
    (crawl world cfg startUrl fuel).visited.length ≤ cfg.maxPages := by
  refine crawlLoop_inv world cfg startUrl
    (fun s => s.visited.length ≤ cfg.maxPages) ?_ fuel (initState startUrl)
    (Nat.zero_le _)
  intro s hq hlen _
  rcases crawlStep_cases world cfg startUrl s with ⟨he, _⟩ | ⟨url, depth, rest, hqeq, hcase⟩
  · rw [he]; exact Nat.le_of_lt hlen
  rcases hcase with he | ⟨he, _⟩ | ⟨page, hw, he, _⟩
  · rw [he]; exact Nat.le_of_lt hlen
  · rw [he]; exact Nat.le_of_lt hlen
  · rw [he, processPage_visited, List.length_append, List.length_singleton]
    exact hlen

/-- A `max_pages = 0` run does nothing at all. -/
theorem crawl_maxPages_zero (world : FetchOracle) (cfg : ScrapeConfig)
    (startUrl : Str) (fuel : Nat) (h0 : cfg.maxPages = 0) :
    crawl world cfg startUrl fuel = initState startUrl := by
  cases fuel with
  | zero => rfl
  | succ n =>
    rw [crawl, crawlLoop, if_neg]
    intro hg
    rw [h0] at hg
    exact Nat.not_lt_zero _ hg.2

/-- Fetch bookkeeping: visited URLs were fetched successfully, and any URL
    whose fetch succeeds is attempted exactly once if visited and never
    otherwise. -/
theorem crawl_fetch_facts (world : FetchOracle) (cfg : ScrapeConfig)
    (startUrl : Str) (fuel : Nat) :
    (∀ u ∈ (crawl world cfg startUrl fuel).visited, world u ≠ none) ∧
      (∀ u, world u ≠ none →
        (((crawl world cfg startUrl fuel).attempts.map Prod.fst).count u =
          if u ∈ (crawl world cfg startUrl fuel).visited then 1 else 0)) := by
  refine crawlLoop_inv world cfg startUrl
    (fun s => (∀ u ∈ s.visited, world u ≠ none) ∧
      (∀ u, world u ≠ none →
        ((s.attempts.map Prod.fst).count u = if u ∈ s.visited then 1 else 0)))
    ?_ fuel (initState startUrl) ⟨by simp [initState], by simp [initState]⟩
  intro s hq hlen hP
  rcases crawlStep_cases world cfg startUrl s with ⟨he, _⟩ | ⟨url, depth, rest, hqeq, hcase⟩
  · rw [he]; exact hP
  rcases hcase with he | ⟨he, hnv, hd, hb, hsd, hw⟩ | ⟨page, hw, he, hnv, hd, hb, hsd⟩
  · rw [he]; exact hP
  · rw [he]
    refine ⟨hP.1, ?_⟩
    intro u hu
    show ((s.attempts ++ [(url, depth)]).map Prod.fst).count u = _
    rw [List.map_append, List.count_append]
    have hne : url ≠ u := by
      intro hcontra; subst hcontra; exact hu hw
    have : (([(url, depth)].map Prod.fst).count u) = 0 := by
      simp [List.count_cons, hne]
    rw [this, Nat.add_zero]
    exact hP.2 u hu
  · rw [he]
    rw [processPage_visited] at *
    constructor
    · intro u hu
      rcases List.mem_append.mp hu with hu | hu
      · exact hP.1 u hu
      · rw [List.mem_singleton] at hu
        subst hu
        rw [hw]
        exact fun hc => Option.noConfusion hc
    · intro u hu
      show (((s.attempts ++ [(url, depth)]).map Prod.fst).count u) = _
      rw [List.map_append, List.count_append]
      by_cases hequ : url = u
      · subst hequ
        have h1 : (([(url, depth)].map Prod.fst).count url) = 1 := by simp
        have h0 : ((s.attempts.map Prod.fst).count url) = 0 := by
          have := hP.2 url hu
          rw [if_neg hnv] at this
          exact this
        rw [h0, h1, if_pos (by simp)]
      · have h1 : (([(url, depth)].map Prod.fst).count u) = 0 := by
          simp [List.count_cons, hequ]
        rw [h1, Nat.add_zero]
        have hmem : (u ∈ s.visited ++ [url]) ↔ u ∈ s.visited := by
          rw [List.mem_append, List.mem_singleton]
          constructor
          · rintro (h | h)
            · exact h
            · exact absurd h.symm hequ
          · exact Or.inl
        rw [if_congr hmem rfl rfl]
        exact hP.2 u hu

theorem map_pyTrim_self (l : List Str) (h : ∀ x ∈ l, pyTrim x = x) :
    l.map pyTrim = l := by
  induction l with
  | nil => rfl
  | cons a rest ih =>
    rw [List.map_cons, h a (List.mem_cons_self a rest),
      ih (fun x hx => h x (List.mem_cons_of_mem a hx))]

/-- Re-splitting the dedupe output recovers exactly the kept fragments. -/
theorem fragsOf_dedupe (t : Str) (seen : List Str) :
    fragsOf (dedupeLinesGlobal t seen).1 = (dedupeAux (splitDotSpace t) seen).1 := by
  have hprops : ∀ l ∈ (dedupeAux (splitDotSpace t) seen).1,
      pyTrim l = l ∧ 30 ≤ l.length ∧ hasDS l = false := by
    intro l hl
    obtain ⟨⟨raw, hraw, hlr⟩, hlen⟩ := dedupeAux_out _ _ l hl
    have hds : hasDS raw = false := splitDotSpace_no_ds t raw hraw
    subst hlr
    exact ⟨pyTrim_idem raw, hlen, hasDS_pyTrim raw hds⟩
  cases hne : (dedupeAux (splitDotSpace t) seen).1 with
  | nil =>
    have h1 : (dedupeLinesGlobal t seen).1 = [] := by
      unfold dedupeLinesGlobal
      rw [hne]
      rfl
    rw [h1]
    rfl
  | cons a tl =>
    have hnenil : (dedupeAux (splitDotSpace t) seen).1 ≠ [] := by
      rw [hne]; exact List.cons_ne_nil a tl
    unfold fragsOf dedupeLinesGlobal
    rw [splitDotSpace_intercalate _ hnenil (fun l hl => (hprops l hl).2.2),
      map_pyTrim_self _ (fun l hl => (hprops l hl).1),
      List.filter_eq_self.mpr (fun l hl => by simpa using (hprops l hl).2.1)]
    exact hne

/-- Cross-page signature bookkeeping: all signatures of retained page texts
    are registered in `seen_signatures`, and no signature occurs twice
    across the retained texts. -/
theorem crawl_sig_facts (world : FetchOracle) (cfg : ScrapeConfig)
    (startUrl : Str) (fuel : Nat) :
    (sigsOfTexts (crawl world cfg startUrl fuel).texts).Nodup ∧
      (∀ g ∈ sigsOfTexts (crawl world cfg startUrl fuel).texts,
        g ∈ (crawl world cfg startUrl fuel).seen) := by
  refine crawlLoop_inv world cfg startUrl
    (fun s => (sigsOfTexts s.texts).Nodup ∧
      (∀ g ∈ sigsOfTexts s.texts, g ∈ s.seen))
    ?_ fuel (initState startUrl) ⟨by simp [initState, sigsOfTexts], by simp [initState, sigsOfTexts]⟩
  intro s hq hlen hP
  rcases crawlStep_cases world cfg startUrl s with ⟨he, _⟩ | ⟨url, depth, rest, hqeq, hcase⟩
  · rw [he]; exact hP
  rcases hcase with he | ⟨he, hnv, hd, hb, hsd, hw⟩ | ⟨page, hw, he, hnv, hd, hb, hsd⟩
  · rw [he]; exact hP
  · rw [he]; exact hP
  · rw [he]
    rw [processPage_texts, processPage_seen]
    set t1 := filterText page.extractedText cfg with ht1
    have hseen' : (dedupeLinesGlobal t1 s.seen).2 =
        s.seen ++ ((dedupeAux (splitDotSpace t1) s.seen).1).map sigOf := by
      unfold dedupeLinesGlobal
      exact dedupeAux_seen _ _
    by_cases hkeep : (dedupeLinesGlobal t1 s.seen).1 ≠ [] ∧
        50 < (dedupeLinesGlobal t1 s.seen).1.length
    · rw [if_pos hkeep]
      rw [sigsOfTexts_append, fragsOf_dedupe]
      obtain ⟨hnd, hfr⟩ := dedupeAux_fresh_nodup (splitDotSpace t1) s.seen
      constructor
      · rw [List.nodup_append]
        refine ⟨hP.1, hnd, ?_⟩
        intro g hg hg'
        exact hfr g hg' (hP.2 g hg)
      · intro g hg
        rw [hseen', List.mem_append]
        rcases List.mem_append.mp hg with hg | hg
        · exact Or.inl (hP.2 g hg)
        · exact Or.inr hg
    · rw [if_neg hkeep]
      refine ⟨hP.1, ?_⟩
      intro g hg
      rw [hseen', List.mem_append]
      exact Or.inl (hP.2 g hg)

/-- Every entry ever present in the frontier queue is same-domain with the
    start URL (the start entry trivially, discovered links by the
    enqueue-time check). -/
theorem crawl_queue_domain (world : FetchOracle) (cfg : ScrapeConfig)
    (startUrl : Str) (fuel : Nat) :
    ∀ e ∈ (crawl world cfg startUrl fuel).queue, sameDomain startUrl e.1 = true := by
  refine crawlLoop_inv world cfg startUrl
    (fun s => ∀ e ∈ s.queue, sameDomain startUrl e.1 = true)
    ?_ fuel (initState startUrl) ?_
  · intro s hq hlen hP
    rcases crawlStep_cases world cfg startUrl s with ⟨he, _⟩ | ⟨url, depth, rest, hqeq, hcase⟩
    · rw [he]; exact hP
    have hrest : ∀ e ∈ rest, sameDomain startUrl e.1 = true := by
      intro e he'
      exact hP e (by rw [hqeq]; exact List.mem_cons_of_mem _ he')
    rcases hcase with he | ⟨he, hnv, hd, hb, hsd, hw⟩ | ⟨page, hw, he, hnv, hd, hb, hsd⟩
    · rw [he]; exact hrest
    · rw [he]; exact hrest
    · rw [he, processPage_queue]
      intro e he'
      rcases List.mem_append.mp he' with he' | he'
      · exact hrest e he'
      · exact (discoverLinks_mem _ _ _ _ _ _ e he').2.2.2.1
  · intro e he'
    rw [initState] at he'
    rcases List.mem_singleton.mp he' with rfl
    unfold sameDomain
    exact beq_self_eq_true _

/-- Blocked URLs are never attempted, never visited, and never produce a
    `PageResult`. -/
theorem crawl_blocked_facts (world : FetchOracle) (cfg : ScrapeConfig)
    (startUrl : Str) (fuel : Nat) :
    (∀ u ∈ (crawl world cfg startUrl fuel).visited, isBlocked u cfg = false) ∧
      (∀ m ∈ (crawl world cfg startUrl fuel).metas, isBlocked m.sourceUrl cfg = false) ∧
      (∀ e ∈ (crawl world cfg startUrl fuel).attempts, isBlocked e.1 cfg = false) := by
  refine crawlLoop_inv world cfg startUrl
    (fun s => (∀ u ∈ s.visited, isBlocked u cfg = false) ∧
      (∀ m ∈ s.metas, isBlocked m.sourceUrl cfg = false) ∧
      (∀ e ∈ s.attempts, isBlocked e.1 cfg = false))
    ?_ fuel (initState startUrl) ⟨by simp [initState], by simp [initState], by simp [initState]⟩
  intro s hq hlen hP
  rcases crawlStep_cases world cfg startUrl s with ⟨he, _⟩ | ⟨url, depth, rest, hqeq, hcase⟩
  · rw [he]; exact hP
  rcases hcase with he | ⟨he, hnv, hd, hb, hsd, hw⟩ | ⟨page, hw, he, hnv, hd, hb, hsd⟩
  · rw [he]; exact hP
  · rw [he]
    refine ⟨hP.1, hP.2.1, ?_⟩
    intro e he'
    rcases List.mem_append.mp he' with he' | he'
    · exact hP.2.2 e he'
    · rcases List.mem_singleton.mp he' with rfl
      exact hb
  · rw [he]
    refine ⟨?_, ?_, ?_⟩
    · rw [processPage_visited]
      intro u hu
      rcases List.mem_append.mp hu with hu | hu
      · exact hP.1 u hu
      · rcases List.mem_singleton.mp hu with rfl
        exact hb
    · rw [processPage_metas]
      by_cases hkeep : (dedupeLinesGlobal (filterText page.extractedText cfg) s.seen).1 ≠ [] ∧
          50 < (dedupeLinesGlobal (filterText page.extractedText cfg) s.seen).1.length
      · rw [if_pos hkeep]
        intro m hm
        rcases List.mem_append.mp hm with hm | hm
        · exact hP.2.1 m hm
        · rcases List.mem_singleton.mp hm with rfl
          exact hb
      · rw [if_neg hkeep]
        exact hP.2.1
    · rw [processPage_attempts]
      intro e he'
      rcases List.mem_append.mp he' with he' | he'
      · exact hP.2.2 e he'
      · rcases List.mem_singleton.mp he' with rfl
        exact hb

/-- Depth bookkeeping: every fetch attempt happens at a frontier depth of at
    most `max_depth`, and every `PageResult` URL comes from an attempted
    entry. -/
theorem crawl_depth_facts (world : FetchOracle) (cfg : ScrapeConfig)
    (startUrl : Str) (fuel : Nat) :
    (∀ e ∈ (crawl world cfg startUrl fuel).attempts, e.2 ≤ cfg.maxDepth) ∧
      (∀ m ∈ (crawl world cfg startUrl fuel).metas,
        m.sourceUrl ∈ (crawl world cfg startUrl fuel).attempts.map Prod.fst) := by
  refine crawlLoop_inv world cfg startUrl
    (fun s => (∀ e ∈ s.attempts, e.2 ≤ cfg.maxDepth) ∧
      (∀ m ∈ s.metas, m.sourceUrl ∈ s.attempts.map Prod.fst))
    ?_ fuel (initState startUrl) ⟨by simp [initState], by simp [initState]⟩
  intro s hq hlen hP
  rcases crawlStep_cases world cfg startUrl s with ⟨he, _⟩ | ⟨url, depth, rest, hqeq, hcase⟩
  · rw [he]; exact hP
  rcases hcase with he | ⟨he, hnv, hd, hb, hsd, hw⟩ | ⟨page, hw, he, hnv, hd, hb, hsd⟩
  · rw [he]; exact hP
  · rw [he]
    constructor
    · intro e he'
      rcases List.mem_append.mp he' with he' | he'
      · exact hP.1 e he'
      · rcases List.mem_singleton.mp he' with rfl
        exact hd
    · intro m hm
      rw [List.map_append]
      exact List.mem_append_left _ (hP.2 m hm)
  · rw [he]
    rw [processPage_attempts, processPage_metas]
    constructor
    · intro e he'
      rcases List.mem_append.mp he' with he' | he'
      · exact hP.1 e he'
      · rcases List.mem_singleton.mp he' with rfl
        exact hd
    · by_cases hkeep : (dedupeLinesGlobal (filterText page.extractedText cfg) s.seen).1 ≠ [] ∧
          50 < (dedupeLinesGlobal (filterText page.extractedText cfg) s.seen).1.length
      · rw [if_pos hkeep]
        intro m hm
        rw [List.map_append]
        rcases List.mem_append.mp hm with hm | hm
        · exact List.mem_append_left _ (hP.2 m hm)
        · rcases List.mem_singleton.mp hm with rfl
          refine List.mem_append_right _ ?_
          simp
      · rw [if_neg hkeep]
        intro m hm
        rw [List.map_append]
        exact List.mem_append_left _ (hP.2 m hm)

/-- A text all of whose stripped lines are empty or match a default block
    pattern filters to the empty string, whatever the configuration. -/
theorem filterText_all_blocked (t : Str) (cfg : ScrapeConfig)
    (h : ∀ ln ∈ (splitCh '\n' t).map pyTrim,
      ln.isEmpty = true ∨ contentBlockedDefault ln = true) :
    filterText t cfg = [] := by
  have hk : ((splitCh '\n' t).map pyTrim).filter
      (fun ln => !ln.isEmpty && !(contentBlockedDefault ln || cfg.blockText ln)) = [] := by
    rw [List.filter_eq_nil_iff]
    intro ln hln
    rcases h ln hln with h' | h'
    · simp [h']
    · simp [h']
  show pyTrim (collapseWS (List.intercalate [' ']
    (((splitCh '\n' t).map pyTrim).filter
      (fun ln => !ln.isEmpty && !(contentBlockedDefault ln || cfg.blockText ln))))) = []
  rw [hk]
  rfl

theorem dedupe_nil (seen : List Str) : dedupeLinesGlobal [] seen = ([], seen) := rfl

/-- One full crawl iteration on an eligible queue head whose fetch succeeds:
    the page text and metadata are appended exactly when the filtered,
    deduplicated text is non-empty and longer than 50 characters; a page
    whose entire extracted text is the single line "Feedback" is always
    discarded. -/
theorem claim5_pageresult_iff (world : FetchOracle) (cfg : ScrapeConfig)
    (startUrl url : Str) (depth : Nat) (rest : List (Str × Nat)) (s : CrawlState)
    (page : Page)
    (hq : s.queue = (url, depth) :: rest) (hv : url ∉ s.visited)
    (hd : depth ≤ cfg.maxDepth) (hb : isBlocked url cfg = false)
    (hs : sameDomain startUrl url = true) (hw : world url = some page) :
    ((crawlStep world cfg startUrl s).texts =
      if (dedupeLinesGlobal (filterText page.extractedText cfg) s.seen).1 ≠ [] ∧
          50 < (dedupeLinesGlobal (filterText page.extractedText cfg) s.seen).1.length then
        s.texts ++ [(dedupeLinesGlobal (filterText page.extractedText cfg) s.seen).1]
      else s.texts) ∧
    ((crawlStep world cfg startUrl s).metas =
      if (dedupeLinesGlobal (filterText page.extractedText cfg) s.seen).1 ≠ [] ∧
          50 < (dedupeLinesGlobal (filterText page.extractedText cfg) s.seen).1.length then
        s.metas ++ [⟨url, page.cleanedHtml⟩]
      else s.metas) ∧
    (page.extractedText = "Feedback".data →
      (crawlStep world cfg startUrl s).texts = s.texts ∧
      (crawlStep world cfg startUrl s).metas = s.metas) := by
  have hstep : crawlStep world cfg startUrl s =
      processPage cfg startUrl url depth rest page s := by
    unfold crawlStep
    rw [hq]
    dsimp only
    rw [if_neg hv, if_neg (Nat.not_lt.mpr hd), if_neg (by simp [hb]),
      if_neg (by simp [hs]), hw]
  rw [hstep, processPage_texts, processPage_metas]
  refine ⟨rfl, rfl, ?_⟩
  intro hfb
  have hft : filterText page.extractedText cfg = [] := by
    rw [hfb]
    apply filterText_all_blocked
    have hlines : (splitCh '\n' ("Feedback".data)).map pyTrim = ["Feedback".data] := by
      decide
    rw [hlines]
    intro ln hln
    rcases List.mem_singleton.mp hln with rfl
    right
    decide
  have h2 : (dedupeLinesGlobal (filterText page.extractedText cfg) s.seen).1 = [] := by
    rw [hft, dedupe_nil]
  rw [if_neg (by simp [h2]), if_neg (by simp [h2])]
  exact ⟨rfl, rfl⟩

/-! ### Concrete runs used as counterexamples and witnesses -/

/-- A start URL on domain `a.com`. -/
def urlA : Str := "http://a.com/".data

/-- A same-domain link target. -/
def urlB : Str := "http://a.com/b".data

/-- A cross-domain link target. -/
def urlX : Str := "http://b.org/x".data

/-- A start page linking twice to `urlB`. -/
def pageTwoLinks : Page :=
  { cleanedHtml := "<html/>".data
    extractedText := "x".data
    hrefs := ["http://a.com/b".data, "http://a.com/b".data] }

/-- Fetches succeed only for `urlA`; in particular both fetches of `urlB`
    raise. -/
def worldTwoLinks : FetchOracle := fun u => if u = urlA then some pageTwoLinks else none

/-- A start page with one cross-domain link. -/
def pageXLink : Page :=
  { cleanedHtml := "<html/>".data
    extractedText := "x".data
    hrefs := ["http://b.org/x".data] }

def worldXLink : FetchOracle := fun u => if u = urlA then some pageXLink else none

/-- C1, counterexample: `urlB` passes the blocklist and same-domain checks,
    its two fetch attempts both fail, it is never marked visited, and it is
    fetch-attempted twice in the (completed: final queue empty) run. -/
theorem claim1_counterexample :
    isBlocked urlB {} = false ∧ sameDomain urlA urlB = true ∧
    ((crawl worldTwoLinks {} urlA 10).attempts.map Prod.fst).count urlB = 2 ∧
    urlB ∉ (crawl worldTwoLinks {} urlA 10).visited ∧
    (crawl worldTwoLinks {} urlA 10).queue = [] := by decide

/-- C1, amended: a URL is added to `visited` only when its fetch succeeds,
    and a URL whose fetch succeeds is fetch-attempted at most once per run
    (and, once attempted, is in `visited`). -/
theorem claim1_success_marks_visited (world : FetchOracle) (cfg : ScrapeConfig)
    (startUrl : Str) (fuel : Nat) :
    (∀ u ∈ (crawl world cfg startUrl fuel).visited, world u ≠ none) ∧
    (∀ u, world u ≠ none →
      ((crawl world cfg startUrl fuel).attempts.map Prod.fst).count u ≤ 1) ∧
    (∀ u, world u ≠ none →
      u ∈ (crawl world cfg startUrl fuel).attempts.map Prod.fst →
      u ∈ (crawl world cfg startUrl fuel).visited) := by
  obtain ⟨h1, h2⟩ := crawl_fetch_facts world cfg startUrl fuel
  refine ⟨h1, ?_, ?_⟩
  · intro u hu
    rw [h2 u hu]
    split
    · exact Nat.le_refl 1
    · exact Nat.zero_le 1
  · intro u hu hmem
    have hpos := List.count_pos_iff.mpr hmem
    rw [h2 u hu] at hpos
    by_cases hv : u ∈ (crawl world cfg startUrl fuel).visited
    · exact hv
    · rw [if_neg hv] at hpos
      exact absurd hpos (Nat.lt_irrefl 0)

/-- C1, witness for the amended statement at a concrete run. -/
theorem claim1_witness :
    worldTwoLinks urlA ≠ none ∧
    ((crawl worldTwoLinks {} urlA 10).attempts.map Prod.fst).count urlA ≤ 1 ∧
    urlA ∈ (crawl worldTwoLinks {} urlA 10).visited := by
  refine ⟨by decide, ?_, ?_⟩
  · exact (claim1_success_marks_visited worldTwoLinks {} urlA 10).2.1 urlA (by decide)
  · exact (claim1_success_marks_visited worldTwoLinks {} urlA 10).2.2 urlA
      (by decide) (by decide)

/-- C2: the visited set never exceeds `max_pages`, and a `max_pages = 0` run
    returns empty texts, metadata and visited and attempts no fetch. -/
theorem claim2_page_cap (world : FetchOracle) (cfg : ScrapeConfig)
    (startUrl : Str) (fuel : Nat) :
    (crawl world cfg startUrl fuel).visited.length ≤ cfg.maxPages ∧
    (cfg.maxPages = 0 →
      (crawl world cfg startUrl fuel).texts = [] ∧
      (crawl world cfg startUrl fuel).metas = [] ∧
      (crawl world cfg startUrl fuel).visited = [] ∧
      (crawl world cfg startUrl fuel).attempts = []) := by
  refine ⟨crawl_visited_le world cfg startUrl fuel, ?_⟩
  intro h0
  rw [crawl_maxPages_zero world cfg startUrl fuel h0]
  exact ⟨rfl, rfl, rfl, rfl⟩

/-- C2, witness: a concrete `max_pages = 0` run. -/
theorem claim2_witness :
    (crawl worldTwoLinks { maxPages := 0 } urlA 5).visited.length ≤ 0 ∧
    (crawl worldTwoLinks { maxPages := 0 } urlA 5).texts = [] ∧
    (crawl worldTwoLinks { maxPages := 0 } urlA 5).attempts = [] := by
  have h := claim2_page_cap worldTwoLinks { maxPages := 0 } urlA 5
  exact ⟨h.1, (h.2 rfl).1, (h.2 rfl).2.2.2⟩

/-- C4, counterexample: the same-domain check is applied at enqueue time:
    the discovered cross-domain href is dropped by `discoverLinks`, the
    queue never holds it at any point of the (completed) run, and it is
    never fetch-attempted. -/
theorem claim4_counterexample :
    urlX ∈ pageXLink.hrefs ∧ sameDomain urlA urlX = false ∧
    discoverLinks urlA urlA 0 {} [urlA] pageXLink.hrefs = [] ∧
    ((List.range 10).all (fun k =>
      ((crawlLoop worldXLink {} urlA k (initState urlA)).queue.all
        (fun e => !(e.1 == urlX))))) = true ∧
    (crawlLoop worldXLink {} urlA 9 (initState urlA)).queue = [] ∧
    urlX ∉ (crawl worldXLink {} urlA 10).attempts.map Prod.fst := by decide

/-- C4, amended: same-domain is enforced at enqueue time as well as at
    dequeue time, so every entry ever held in the queue is same-domain with
    the start URL. -/
theorem claim4_enqueue_domain_check (world : FetchOracle) (cfg : ScrapeConfig)
    (startUrl : Str) (fuel : Nat) :
    (∀ e ∈ (crawl world cfg startUrl fuel).queue, sameDomain startUrl e.1 = true) ∧
    (∀ url depth visited hrefs, ∀ e ∈ discoverLinks startUrl url depth cfg visited hrefs,
      sameDomain startUrl e.1 = true) := by
  refine ⟨crawl_queue_domain world cfg startUrl fuel, ?_⟩
  intro url depth visited hrefs e he
  exact (discoverLinks_mem startUrl url depth cfg visited hrefs e he).2.2.2.1

/-- C4, witness: a transient queue entry of a concrete run is same-domain. -/
theorem claim4_witness :
    (urlB, 1) ∈ (crawl worldTwoLinks {} urlA 1).queue ∧
    sameDomain urlA urlB = true := by
  refine ⟨by decide, ?_⟩
  exact (claim4_enqueue_domain_check worldTwoLinks {} urlA 1).1 (urlB, 1) (by decide)

/-- C5, witness: a page whose entire extracted text is "Feedback" yields no
    `PageResult`. -/
def feedbackPage : Page :=
  { cleanedHtml := "<div/>".data
    extractedText := "Feedback".data
    hrefs := [] }

def worldFeedback : FetchOracle := fun u => if u = urlA then some feedbackPage else none

theorem claim5_witness :
    (crawlStep worldFeedback {} urlA (initState urlA)).texts = [] ∧
    (crawlStep worldFeedback {} urlA (initState urlA)).metas = [] := by
  have h := claim5_pageresult_iff worldFeedback {} urlA urlA 0 [] (initState urlA)
    feedbackPage rfl (by decide) (by decide) (by decide) (by decide) (by decide)
  exact h.2.2 rfl

/-- C6: a URL matching a built-in blocklist pattern is never visited, never
    yields a `PageResult`, is never fetch-attempted, and is rejected at
    link-discovery time. -/
theorem claim6_blocklist_exclusion (world : FetchOracle) (cfg : ScrapeConfig)
    (startUrl : Str) (fuel : Nat) :
    ∀ u, isBlockedBuiltin u = true →
      u ∉ (crawl world cfg startUrl fuel).visited ∧
      (∀ m ∈ (crawl world cfg startUrl fuel).metas, m.sourceUrl ≠ u) ∧
      u ∉ (crawl world cfg startUrl fuel).attempts.map Prod.fst ∧
      (∀ url depth visited hrefs, ∀ e ∈ discoverLinks startUrl url depth cfg visited hrefs,
        e.1 ≠ u) := by
  intro u hu
  have hbl : isBlocked u cfg = true := by
    unfold isBlocked
    rw [hu, Bool.true_or]
  obtain ⟨h1, h2, h3⟩ := crawl_blocked_facts world cfg startUrl fuel
  refine ⟨?_, ?_, ?_, ?_⟩
  · intro hv
    rw [h1 u hv] at hbl
    exact Bool.noConfusion hbl
  · intro m hm hmeq
    rw [← hmeq] at hbl
    rw [h2 m hm] at hbl
    exact Bool.noConfusion hbl
  · intro hmem
    rw [List.mem_map] at hmem
    obtain ⟨e, he, heq⟩ := hmem
    rw [← heq] at hbl
    rw [h3 e he] at hbl
    exact Bool.noConfusion hbl
  · intro url depth visited hrefs e he heq
    have hbf := (discoverLinks_mem startUrl url depth cfg visited hrefs e he).2.2.1
    rw [heq] at hbf
    rw [hbf] at hbl
    exact Bool.noConfusion hbl

/-- C6, witness: `/login` and `mailto:` URLs at a concrete run. -/
theorem claim6_witness :
    "http://a.com/login".data ∉ (crawl worldTwoLinks {} urlA 10).visited ∧
    "mailto:bob@a.com".data ∉ (crawl worldTwoLinks {} urlA 10).attempts.map Prod.fst := by
  refine ⟨?_, ?_⟩
  · exact (claim6_blocklist_exclusion worldTwoLinks {} urlA 10 _ (by decide)).1
  · exact (claim6_blocklist_exclusion worldTwoLinks {} urlA 10 _ (by decide)).2.2.1

/-- C7: the start URL enters at depth 0, discovered links enter at
    `depth + 1`, no fetch is attempted beyond `max_depth`, and every
    `PageResult` URL comes from an attempted entry. -/
theorem claim7_depth_bound (world : FetchOracle) (cfg : ScrapeConfig)
    (startUrl : Str) (fuel : Nat) :
    (initState startUrl).queue = [(startUrl, 0)] ∧
    (∀ url depth visited hrefs, ∀ e ∈ discoverLinks startUrl url depth cfg visited hrefs,
      e.2 = depth + 1) ∧
    (∀ e ∈ (crawl world cfg startUrl fuel).attempts, e.2 ≤ cfg.maxDepth) ∧
    (∀ m ∈ (crawl world cfg startUrl fuel).metas,
      m.sourceUrl ∈ (crawl world cfg startUrl fuel).attempts.map Prod.fst) := by
  obtain ⟨h1, h2⟩ := crawl_depth_facts world cfg startUrl fuel
  exact ⟨rfl, fun url depth visited hrefs e he =>
    (discoverLinks_mem startUrl url depth cfg visited hrefs e he).2.2.2.2, h1, h2⟩

/-- C7, witness: a depth-1 attempt in a concrete run respects the bound. -/
theorem claim7_witness :
    (urlB, 1) ∈ (crawl worldTwoLinks {} urlA 10).attempts ∧
    1 ≤ ({} : ScrapeConfig).maxDepth := by
  refine ⟨by decide, ?_⟩
  exact (claim7_depth_bound worldTwoLinks {} urlA 10).2.2.1 (urlB, 1) (by decide)

/-- C9: blocklist patterns match anywhere in the URL, case-insensitively, so
    any URL containing a blocked fragment is ineligible and never fetched. -/
theorem claim9_unanchored_blocklist (world : FetchOracle) (cfg : ScrapeConfig)
    (startUrl : Str) (fuel : Nat) :
    (∀ u, subSearch "/help".data (lowerStr u) = true → isBlockedBuiltin u = true) ∧
    (∀ u, subSearch "/contact".data (lowerStr u) = true → isBlockedBuiltin u = true) ∧
    isBlockedBuiltin "https://x.com/helpful-guide".data = true ∧
    isBlockedBuiltin "https://x.com/contact-lenses".data = true ∧
    (∀ u, isBlockedBuiltin u = true →
      u ∉ (crawl world cfg startUrl fuel).attempts.map Prod.fst ∧
      (∀ m ∈ (crawl world cfg startUrl fuel).metas, m.sourceUrl ≠ u)) := by
  refine ⟨?_, ?_, by decide, by decide, ?_⟩
  · intro u h
    simp [isBlockedBuiltin, h]
  · intro u h
    simp [isBlockedBuiltin, h]
  · intro u hu
    have hbl : isBlocked u cfg = true := by
      unfold isBlocked
      rw [hu, Bool.true_or]
    obtain ⟨h1, h2, h3⟩ := crawl_blocked_facts world cfg startUrl fuel
    constructor
    · intro hmem
      rw [List.mem_map] at hmem
      obtain ⟨e, he, heq⟩ := hmem
      rw [← heq] at hbl
      rw [h3 e he] at hbl
      exact Bool.noConfusion hbl
    · intro m hm hmeq
      rw [← hmeq] at hbl
      rw [h2 m hm] at hbl
      exact Bool.noConfusion hbl

/-- C9, witness: a URL merely containing "/help" is never fetch-attempted. -/
theorem claim9_witness :
    "https://a.com/helpful-guide".data ∉
      (crawl worldTwoLinks {} urlA 10).attempts.map Prod.fst :=
  ((claim9_unanchored_blocklist worldTwoLinks {} urlA 10).2.2.2.2 _ (by decide)).1

/-- C10: deduplication also acts within a single page: the output fragments
    have pairwise distinct signatures, form a sublist of the input
    fragments, and for each unseen signature the first input fragment
    carrying it is retained. -/
theorem claim10_dedupe_within_page (t : Str) (seen : List Str) :
    ((fragsOf (dedupeLinesGlobal t seen).1).map sigOf).Nodup ∧
    List.Sublist (fragsOf (dedupeLinesGlobal t seen).1) (fragsOf t) ∧
    (∀ f ∈ fragsOf t, sigOf f ∉ seen →
      ∃ f₀, ((fragsOf t).filter (fun l => sigOf l == sigOf f)).head? = some f₀ ∧
        f₀ ∈ fragsOf (dedupeLinesGlobal t seen).1) := by
  rw [fragsOf_dedupe]
  refine ⟨(dedupeAux_fresh_nodup _ _).1, dedupeAux_sublist _ _, ?_⟩
  intro f hf hne
  have hmem : f ∈ (fragsOf t).filter (fun l => sigOf l == sigOf f) :=
    List.mem_filter.mpr ⟨hf, by simp⟩
  cases hfl : (fragsOf t).filter (fun l => sigOf l == sigOf f) with
  | nil =>
    rw [hfl] at hmem
    exact absurd hmem (List.not_mem_nil f)
  | cons f₀ tl =>
    refine ⟨f₀, ?_, ?_⟩
    · simp
    · refine dedupeAux_first (splitDotSpace t) seen (sigOf f) hne f₀ ?_
      show ((fragsOf t).filter (fun l => sigOf l == sigOf f)).head? = some f₀
      rw [hfl]
      simp

/-- C10, witness: a page repeating one 36-character sentence keeps only its
    first occurrence. -/
def fragA : Str := "this sentence is long enough to keep".data

def dupText : Str := fragA ++ ('.' :: ' ' :: fragA)

theorem claim10_witness :
    ((fragsOf (dedupeLinesGlobal dupText []).1).map sigOf).Nodup ∧
    (∃ f₀, ((fragsOf dupText).filter (fun l => sigOf l == sigOf fragA)).head? = some f₀ ∧
      f₀ ∈ fragsOf (dedupeLinesGlobal dupText []).1) := by
  obtain ⟨h1, h2, h3⟩ := claim10_dedupe_within_page dupText []
  exact ⟨h1, h3 fragA (by decide) (by decide)⟩

/-- Closed form of the chunking loop: per-page chunk lists and per-page
    `range`-enumerated metadata, concatenated in page order. -/
theorem chunkPayload_eq (split : Str → List Str) (ts : List Str) (ms : List PageMeta) :
    (chunkPayload split ts ms).1 = ((ts.zip ms).map (fun tm => split tm.1)).flatten ∧
    (chunkPayload split ts ms).2 = ((ts.zip ms).map (fun tm =>
      (List.range (split tm.1).length).map (fun idx =>
        [("source_url", MVal.s tm.2.sourceUrl), ("chunk", MVal.n idx)]))).flatten := by
  induction ts generalizing ms with
  | nil => simp [chunkPayload]
  | cons t ts ih =>
    cases ms with
    | nil => simp [chunkPayload]
    | cons m ms =>
      obtain ⟨ih1, ih2⟩ := ih ms
      simp only [chunkPayload, List.zip_cons_cons, List.map_cons, List.flatten_cons]
      exact ⟨by rw [ih1], by rw [ih2]⟩

/-- C8: whatever payload reaches `add_texts` consists of parallel sequences
    in which every metadata mapping has exactly the keys `source_url` and
    `chunk`, with `chunk` enumerating each page's chunks from 0 in order. -/
theorem claim8_chunk_metadata (world : FetchOracle) (cfg : ScrapeConfig)
    (startUrl : Str) (fuel : Nat) (split : Str → List Str) (incT : Bool)
    (ct : List Str) (cm : List ChunkMeta)
    (h : (scrapeAndIndex world cfg startUrl fuel split true incT).indexed = some (ct, cm)) :
    (∀ m ∈ cm, m.map Prod.fst = ["source_url", "chunk"]) ∧
    cm = (((crawl world cfg startUrl fuel).texts.zip (crawl world cfg startUrl fuel).metas).map
      (fun tm => (List.range (split tm.1).length).map (fun idx =>
        [("source_url", MVal.s tm.2.sourceUrl), ("chunk", MVal.n idx)]))).flatten ∧
    ct.length = cm.length := by
  have hpay : chunkPayload split (crawl world cfg startUrl fuel).texts
      (crawl world cfg startUrl fuel).metas = (ct, cm) := by
    simp only [scrapeAndIndex] at h
    split at h
    · split at h
      · exact Option.some.inj h
      · exact Option.noConfusion h
    · exact Option.noConfusion h
  obtain ⟨hct, hcm⟩ := chunkPayload_eq split (crawl world cfg startUrl fuel).texts
    (crawl world cfg startUrl fuel).metas
  rw [hpay] at hct hcm
  dsimp only at hct hcm
  refine ⟨?_, hcm, ?_⟩
  · intro m hm
    rw [hcm] at hm
    rw [List.mem_flatten] at hm
    obtain ⟨inner, hinner, hmi⟩ := hm
    rw [List.mem_map] at hinner
    obtain ⟨tm, _, hin⟩ := hinner
    rw [← hin] at hmi
    rw [List.mem_map] at hmi
    obtain ⟨idx, _, hmm⟩ := hmi
    rw [← hmm]
    rfl
  · rw [hct, hcm, List.length_flatten, List.length_flatten,
      List.map_map, List.map_map]
    congr 1
    apply List.map_congr_left
    intro tm _
    simp

/-- C8, witness: a two-chunk run through a concrete splitter. -/
def longText : Str :=
  "the quick brown fox jumps over the lazy dog near the river bank today".data

def longPage : Page :=
  { cleanedHtml := "<p/>".data
    extractedText := longText
    hrefs := [] }

def worldLong : FetchOracle := fun u => if u = urlA then some longPage else none

def splitTwo : Str → List Str := fun t => [t.take 40, t.drop 40]

def chunkMetaW : List ChunkMeta :=
  [[("source_url", MVal.s urlA), ("chunk", MVal.n 0)],
   [("source_url", MVal.s urlA), ("chunk", MVal.n 1)]]

theorem claim8_witness :
    (∀ m ∈ chunkMetaW, m.map Prod.fst = ["source_url", "chunk"]) ∧
    chunkMetaW = (((crawl worldLong {} urlA 5).texts.zip
        (crawl worldLong {} urlA 5).metas).map
      (fun tm => (List.range (splitTwo tm.1).length).map (fun idx =>
        [("source_url", MVal.s tm.2.sourceUrl), ("chunk", MVal.n idx)]))).flatten ∧
    ([longText.take 40, longText.drop 40] : List Str).length = chunkMetaW.length :=
  claim8_chunk_metadata worldLong {} urlA 5 splitTwo true
    [longText.take 40, longText.drop 40] chunkMetaW (by decide)

/-- Every long trimmed fragment of the input — kept or discarded — has its
    signature in the output signature set. -/
theorem dedupeAux_all_sigs (raws seen : List Str) :
    ∀ raw ∈ raws, 30 ≤ (pyTrim raw).length →
      sigOf (pyTrim raw) ∈ (dedupeAux raws seen).2 := by
  induction raws generalizing seen with
  | nil => intro raw hraw; exact absurd hraw (List.not_mem_nil raw)
  | cons raw' rest ih =>
    intro raw hraw hlen
    simp only [dedupeAux]
    by_cases h1 : (pyTrim raw').length < 30
    · rw [if_pos h1]
      rcases List.mem_cons.mp hraw with rfl | hraw'
      · exact absurd hlen (Nat.not_le_of_lt h1)
      · exact ih seen raw hraw' hlen
    · rw [if_neg h1]
      by_cases h2 : sigOf (pyTrim raw') ∈ seen
      · rw [if_pos h2]
        rcases List.mem_cons.mp hraw with rfl | hraw'
        · rw [dedupeAux_seen]
          exact List.mem_append_left _ h2
        · exact ih seen raw hraw' hlen
      · rw [if_neg h2]
        rcases List.mem_cons.mp hraw with rfl | hraw'
        · rw [dedupeAux_seen]
          exact List.mem_append_left _ (List.mem_append_right _ (List.mem_singleton.mpr rfl))
        · exact ih (seen ++ [sigOf (pyTrim raw')]) raw hraw' hlen

/-- Every fragment of a deduplicated text's input has its signature in the
    grown `seen_signatures` set, whether or not it was retained. -/
theorem dedupe_all_sigs (t : Str) (seen : List Str) :
    ∀ f ∈ fragsOf t, sigOf f ∈ (dedupeLinesGlobal t seen).2 := by
  intro f hf
  have hf2 : f ∈ ((splitDotSpace t).map pyTrim).filter
      (fun l => 30 ≤ l.length) := hf
  have hf3 := List.mem_filter.mp hf2
  obtain ⟨raw, hraw, rfl⟩ := List.mem_map.mp hf3.1
  exact dedupeAux_all_sigs (splitDotSpace t) seen raw hraw (by simpa using hf3.2)

/-- First-visited-wins bookkeeping over the ghost `processed` trace: the
    retained texts are exactly the processed pages passing the length gate,
    every processed page's fragment signatures are registered in
    `seen_signatures`, each page retains only fragments of its own content,
    and a later-processed page never retains a fragment whose signature
    occurs in an earlier-processed page's content. -/
theorem crawl_first_wins_facts (world : FetchOracle) (cfg : ScrapeConfig)
    (startUrl : Str) (fuel : Nat) :
    ((crawl world cfg startUrl fuel).texts =
      (crawl world cfg startUrl fuel).processed.filterMap
        (fun p => if p.2 ≠ [] ∧ 50 < p.2.length then some p.2 else none)) ∧
    (∀ p ∈ (crawl world cfg startUrl fuel).processed,
      ∀ f ∈ fragsOf p.1, sigOf f ∈ (crawl world cfg startUrl fuel).seen) ∧
    (∀ p ∈ (crawl world cfg startUrl fuel).processed,
      List.Sublist (fragsOf p.2) (fragsOf p.1)) ∧
    List.Pairwise (fun p q => ∀ f ∈ fragsOf p.1, ∀ g ∈ fragsOf q.2, sigOf g ≠ sigOf f)
      (crawl world cfg startUrl fuel).processed := by
  refine crawlLoop_inv world cfg startUrl
    (fun s => (s.texts = s.processed.filterMap
        (fun p => if p.2 ≠ [] ∧ 50 < p.2.length then some p.2 else none)) ∧
      (∀ p ∈ s.processed, ∀ f ∈ fragsOf p.1, sigOf f ∈ s.seen) ∧
      (∀ p ∈ s.processed, List.Sublist (fragsOf p.2) (fragsOf p.1)) ∧
      List.Pairwise (fun p q => ∀ f ∈ fragsOf p.1, ∀ g ∈ fragsOf q.2, sigOf g ≠ sigOf f)
        s.processed)
    ?_ fuel (initState startUrl)
    ⟨rfl, by simp [initState], by simp [initState], by simp [initState]⟩
  intro s hq hlen hP
  rcases crawlStep_cases world cfg startUrl s with ⟨he, _⟩ | ⟨url, depth, rest, hqeq, hcase⟩
  · rw [he]; exact hP
  rcases hcase with he | ⟨he, hnv, hd, hb, hsd, hw⟩ | ⟨page, hw, he, hnv, hd, hb, hsd⟩
  · rw [he]; exact hP
  · rw [he]; exact hP
  · rw [he]
    rw [processPage_texts, processPage_seen, processPage_processed]
    set t1 := filterText page.extractedText cfg with ht1
    set t2 := (dedupeLinesGlobal t1 s.seen).1 with ht2
    have hseen' : (dedupeLinesGlobal t1 s.seen).2 =
        s.seen ++ ((dedupeAux (splitDotSpace t1) s.seen).1).map sigOf := by
      unfold dedupeLinesGlobal
      exact dedupeAux_seen _ _
    have hfr2 : fragsOf t2 = (dedupeAux (splitDotSpace t1) s.seen).1 := fragsOf_dedupe t1 s.seen
    have hfresh : ∀ g ∈ fragsOf t2, sigOf g ∉ s.seen := by
      intro g hg
      rw [hfr2] at hg
      exact (dedupeAux_fresh_nodup (splitDotSpace t1) s.seen).2 (sigOf g)
        (List.mem_map_of_mem sigOf hg)
    refine ⟨?_, ?_, ?_, ?_⟩
    · rw [List.filterMap_append, ← hP.1]
      have hsingle : ([(t1, t2)].filterMap
          (fun p => if p.2 ≠ [] ∧ 50 < p.2.length then some p.2 else none)) =
          if t2 ≠ [] ∧ 50 < t2.length then [t2] else [] := by
        by_cases hk : t2 ≠ [] ∧ 50 < t2.length
        · simp [hk]
        · simp [List.filterMap, hk]
      rw [hsingle]
      by_cases hk : t2 ≠ [] ∧ 50 < t2.length
      · rw [if_pos hk, if_pos hk]
      · rw [if_neg hk, if_neg hk, List.append_nil]
    · intro p hp f hf
      rcases List.mem_append.mp hp with hp | hp
      · rw [hseen']
        exact List.mem_append_left _ (hP.2.1 p hp f hf)
      · rcases List.mem_singleton.mp hp with rfl
        exact dedupe_all_sigs t1 s.seen f hf
    · intro p hp
      rcases List.mem_append.mp hp with hp | hp
      · exact hP.2.2.1 p hp
      · rcases List.mem_singleton.mp hp with rfl
        show List.Sublist (fragsOf t2) (fragsOf t1)
        rw [hfr2]
        exact dedupeAux_sublist (splitDotSpace t1) s.seen
    · rw [List.pairwise_append]
      refine ⟨hP.2.2.2, List.pairwise_singleton _ _, ?_⟩
      intro p hp q hq
      rcases List.mem_singleton.mp hq with rfl
      intro f hf g hg heq
      exact hfresh g hg (heq ▸ hP.2.1 p hp f hf)

/-- C3: within one crawl run, no two PageResults share a sentence-fragment
    signature, and the first-visited page wins a duplicated fragment: the
    ghost `processed` trace pairs each successfully fetched page's filtered
    pre-dedup text (`p.1`) with its deduplicated text (`p.2`); the retained
    texts are exactly the deduplicated texts passing the length gate, each
    page retains only fragments of its own content, and a page processed
    later never retains a fragment whose signature already occurs in an
    earlier-visited page's content — so of two distinct pages containing an
    identical sentence-like fragment, only the first-visited one can retain
    it. -/
theorem claim3_first_page_wins (world : FetchOracle) (cfg : ScrapeConfig)
    (startUrl : Str) (fuel : Nat) :
    (sigsOfTexts (crawl world cfg startUrl fuel).texts).Nodup ∧
    List.Pairwise (fun t1 t2 => ∀ f ∈ fragsOf t1, ∀ g ∈ fragsOf t2, sigOf f ≠ sigOf g)
      (crawl world cfg startUrl fuel).texts ∧
    ((crawl world cfg startUrl fuel).texts =
      (crawl world cfg startUrl fuel).processed.filterMap
        (fun p => if p.2 ≠ [] ∧ 50 < p.2.length then some p.2 else none)) ∧
    (∀ p ∈ (crawl world cfg startUrl fuel).processed,
      List.Sublist (fragsOf p.2) (fragsOf p.1)) ∧
    List.Pairwise (fun p q => ∀ f ∈ fragsOf p.1, ∀ g ∈ fragsOf q.2, sigOf g ≠ sigOf f)
      (crawl world cfg startUrl fuel).processed := by
  have h := (crawl_sig_facts world cfg startUrl fuel).1
  obtain ⟨hfm, _, hsub, hpw⟩ := crawl_first_wins_facts world cfg startUrl fuel
  refine ⟨h, ?_, hfm, hsub, hpw⟩
  unfold sigsOfTexts at h
  rw [List.nodup_flatten] at h
  have hpw' := h.2
  rw [List.pairwise_map] at hpw'
  refine hpw'.imp ?_
  intro t1 t2 hdisj f hf g hg heq
  exact hdisj (List.mem_map_of_mem sigOf hf) (heq ▸ List.mem_map_of_mem sigOf hg)

/-- C3, witness: two same-domain pages sharing the 39-character fragment
    `fragF`; the first page's PageResult retains it, the second page's does
    not. -/
def fragF : Str := "alpha beta gamma delta epsilon zeta eta theta".data

def fragG : Str :=
  "the violet river winds slowly past the quiet mountain village green".data

def fragH : Str :=
  "seven silver stones rest beside the ancient harbor wall at dusk".data

def pageDupA : Page :=
  { cleanedHtml := "<p/>".data
    extractedText := fragF ++ ('.' :: ' ' :: fragG)
    hrefs := ["http://a.com/b".data] }

def pageDupB : Page :=
  { cleanedHtml := "<p/>".data
    extractedText := fragF ++ ('.' :: ' ' :: fragH)
    hrefs := [] }

def worldDup : FetchOracle := fun u =>
  if u = urlA then some pageDupA else if u = urlB then some pageDupB else none

/-- The ghost `processed` entries of the `worldDup` run: page A keeps both
    of its fragments, page B loses the duplicated `fragF` and keeps only
    `fragH`. -/
def procA : Str × Str :=
  (fragF ++ ('.' :: ' ' :: fragG), fragF ++ ('.' :: ' ' :: fragG))

def procB : Str × Str := (fragF ++ ('.' :: ' ' :: fragH), fragH)

set_option maxRecDepth 100000 in
theorem claim3_witness :
    fragF ∈ fragsOf procA.2 ∧ fragF ∈ fragsOf procB.1 ∧
    fragF ∉ fragsOf procB.2 ∧
    (crawl worldDup {} urlA 10).texts = [procA.2, procB.2] ∧
    List.Sublist (fragsOf procB.2) (fragsOf procB.1) ∧
    sigOf fragH ≠ sigOf fragF := by
  have h := claim3_first_page_wins worldDup {} urlA 10
  refine ⟨by decide, by decide, by decide, by decide, ?_, ?_⟩
  · exact h.2.2.2.1 procB (by decide)
  · have hpw := h.2.2.2.2
    have hproc : (crawl worldDup {} urlA 10).processed = [procA, procB] := by decide
    rw [hproc] at hpw
    have hrel := (List.pairwise_cons.mp hpw).1 procB (List.mem_cons_self _ _)
    exact hrel fragF (by decide) fragH (by decide)

end Scraper
